import Mathlib

/-
Verification development for the RAG-Pilot retrieval-and-orchestration engine.

The definitions below are a shallow embedding of the TypeScript source:
  - `src/vectorStore.ts` (VectorStore: chunkDocument, insertItem wrappers,
    removeRepoFromIndex, search, indexWorkspace),
  - `src/ragChatParticipant.ts` (RagChatParticipant.handleRequest: command
    resolution, history rendering, the agentic tool-call loop).

JavaScript string primitives (split, join, trim, slice, substring, length)
are modelled explicitly over `List Char` so that every operation is
executable and provable.  The external Vectra index store is modelled from
the interface the design document gives it (create / insert / list /
delete / query over (vector, metadata) items with store-assigned ids).
-/

namespace RagPilot

/-! ## JavaScript string primitives -/

/-- Model of JavaScript `String.prototype.trim`: drop whitespace from both
ends of the character sequence. -/
def jsTrim (s : String) : String :=
  String.mk (((s.data.dropWhile Char.isWhitespace).reverse.dropWhile
    Char.isWhitespace).reverse)

/-- Model of JavaScript `Array.prototype.join('\n')`. -/
def jsJoin : List String → String
  | [] => ""
  | [s] => s
  | s :: rest => s ++ "\n" ++ jsJoin rest

/-- Helper for `jsSplit`: accumulate the current line (reversed) while
scanning the character list. -/
def splitLinesAux (acc : List Char) : List Char → List String
  | [] => [String.mk acc.reverse]
  | c :: rest =>
    if c = '\n' then String.mk acc.reverse :: splitLinesAux [] rest
    else splitLinesAux (c :: acc) rest

/-- Model of JavaScript `text.split('\n')`. -/
def jsSplit (s : String) : List String :=
  splitLinesAux [] s.data

/-- Model of JavaScript `Array.prototype.slice(start, stop)`, including the
negative-index-counts-from-the-end convention. -/
def jsSlice {α : Type} (xs : List α) (start stop : Int) : List α :=
  let len : Int := xs.length
  let s := if start < 0 then max (len + start) 0 else min start len
  let e := if stop < 0 then max (len + stop) 0 else min stop len
  (xs.drop s.toNat).take (e.toNat - s.toNat)

/-- Model of JavaScript `s.substring(0, n)`. -/
def jsSubstringTo (s : String) (n : Nat) : String :=
  String.mk (s.data.take n)

/-- Model of JavaScript `s.length`. -/
def jsLength (s : String) : Nat :=
  s.data.length

/-! ## Chunker (`VectorStore.chunkDocument`)

The TypeScript loop is

    for (let i = 0; i < lines.length; i += chunkSize - overlap) {
      const chunk = lines.slice(i, i + chunkSize).join('\n');
      if (chunk.trim().length > 0) {
        chunks.push({ text: chunk, startLine: i + 1 });
      }
    }

The step `chunkSize - overlap` can be zero or negative, in which case the
loop never terminates; the embedding therefore threads explicit fuel and
returns `none` when the fuel runs out before the loop exits. -/

/-- A chunk as produced by `chunkDocument`: the window text and its 1-based
first-line index. -/
structure Chunk where
  text : String
  startLine : Int
  deriving DecidableEq

/-- Fuelled embedding of the `chunkDocument` loop.  `i` is the loop
variable (an `Int`, since the TypeScript step may drive it negative),
`step` is `chunkSize - overlap`. -/
def chunkLoopF (lines : List String) (chunkSize : Nat) (step : Int) :
    Nat → Int → Option (List Chunk)
  | fuel, i =>
    if i < (lines.length : Int) then
      match fuel with
      | 0 => none
      | Nat.succ f =>
        let ctext := jsJoin (jsSlice lines i (i + (chunkSize : Int)))
        match chunkLoopF lines chunkSize step f (i + step) with
        | none => none
        | some rest =>
          if 0 < (jsTrim ctext).length then
            some ({ text := ctext, startLine := i + 1 } :: rest)
          else
            some rest
    else
      some []

/-- `VectorStore.chunkDocument(text, chunkSize, overlap)`.  The fuel
`lines.length + 1` is sufficient whenever `overlap < chunkSize` (each loop
iteration then advances `i` by at least one); when `overlap ≥ chunkSize`
the loop diverges and the embedding returns `none`. -/
def chunkDocument (text : String) (chunkSize overlap : Nat) :
    Option (List Chunk) :=
  let lines := jsSplit text
  chunkLoopF lines chunkSize ((chunkSize : Int) - (overlap : Int))
    (lines.length + 1) 0

/-- The `chunkDocument` loop terminates on the given input: some finite
amount of fuel suffices to reach the loop's exit condition. -/
def ChunkTerminates (text : String) (chunkSize overlap : Nat) : Prop :=
  ∃ fuel,
    (chunkLoopF (jsSplit text) chunkSize
      ((chunkSize : Int) - (overlap : Int)) fuel 0).isSome

/-- The candidate window start indices `0, step, 2·step, …` below `len`,
beginning at `i`.  (Defined only for positive `step`; otherwise empty.) -/
def windowStartsFrom (len step : Nat) (i : Nat) : List Nat :=
  if _h : 0 < step ∧ i < len then i :: windowStartsFrom len step (i + step)
  else []
termination_by len - i
decreasing_by omega

/-- The text of the window of `chunkSize` lines starting at 0-based line
index `i`. -/
def chunkAt (lines : List String) (chunkSize i : Nat) : String :=
  jsJoin ((lines.drop i).take chunkSize)

/-- Closed-form (loop-free) restatement of `chunkDocument` for the
terminating case `overlap < chunkSize`; proved equal to the fuelled
embedding in `chunkDocument_eq_run`. -/
def chunkDocumentR (text : String) (chunkSize overlap : Nat) : List Chunk :=
  let lines := jsSplit text
  (windowStartsFrom lines.length (chunkSize - overlap) 0).filterMap
    (fun i =>
      let ctext := chunkAt lines chunkSize i
      if 0 < (jsTrim ctext).length then
        some { text := ctext, startLine := (i : Int) + 1 }
      else
        none)

/-! ## Index store model (Vectra `LocalIndex`, modelled at the interface
boundary the design document gives it)

Modelled from the spec: the external Index Store primitive
(`createIndex` / `isIndexCreated` / `insertItem` / `listItems` /
`deleteIndex` / `queryItems`) is a third-party library whose code is not
part of this repository.  Following §6 of the design document it is a
persistent collection of `(vector, metadata)` items; `insertItem` assigns
a store-chosen fresh identifier when the caller supplies none, and
`queryItems(vector, k)` returns the `k` most similar items ordered by
non-increasing score. -/

/-- The `source` tag of stored chunk metadata: `'workspace' | 'github'`. -/
inductive Source where
  | workspace
  | github
  deriving DecidableEq

/-- The `DocumentMetadata` interface of `vectorStore.ts` (all optional
fields modelled as `Option`). -/
structure DocumentMetadata where
  file : String
  line : Option Int
  source : Option Source
  repo : Option String
  text : Option String
  deriving DecidableEq

/-- An item held by the index store: store-assigned id, vector, metadata. -/
structure Item where
  id : Nat
  vector : List Int
  metadata : DocumentMetadata
  deriving DecidableEq

/-- The index store's state: its items plus the next fresh identifier. -/
structure LocalIndex where
  items : List Item
  nextId : Nat
  deriving DecidableEq

/-- `insertItem({vector, metadata})` without a caller-supplied id: the
store assigns the next fresh identifier. -/
def insertItem (st : LocalIndex) (vector : List Int)
    (metadata : DocumentMetadata) : LocalIndex :=
  { items := st.items ++
      [{ id := st.nextId, vector := vector, metadata := metadata }],
    nextId := st.nextId + 1 }

/-- `listItems()`. -/
def listItems (st : LocalIndex) : List Item :=
  st.items

/-- `deleteIndex()` followed by `createIndex()`: destroy the index and
recreate it empty. -/
def recreateEmptyIndex (_st : LocalIndex) : LocalIndex :=
  { items := [], nextId := 0 }

/-- Dot-product similarity between the query vector and a stored vector
(the embedding provider normalizes vectors, making cosine similarity a
dot product). -/
def score (q v : List Int) : Int :=
  (List.zipWith (· * ·) q v).sum

/-- Insert into a list kept sorted by non-increasing score. -/
def insertByScore (x : Item × Int) : List (Item × Int) → List (Item × Int)
  | [] => [x]
  | y :: ys => if y.2 < x.2 then x :: y :: ys else y :: insertByScore x ys

/-- Sort scored items by non-increasing score. -/
def sortByScoreDesc (l : List (Item × Int)) : List (Item × Int) :=
  l.foldr insertByScore []

/-- `queryItems(vector, k)`: the `k` stored items most similar to the
query, with scores, ordered by non-increasing score. -/
def queryItems (st : LocalIndex) (q : List Int) (k : Nat) :
    List (Item × Int) :=
  (sortByScoreDesc (st.items.map (fun it => (it, score q it.vector)))).take k

/-! ## VectorStore (`src/vectorStore.ts`) -/

/-- The `VectorStore` class state: `index` and `embedder` are `null` until
`initialize()` succeeds. -/
structure VectorStore where
  index : Option LocalIndex
  embedder : Option (String → List Int)

/-- A search hit as returned by `VectorStore.search`. -/
structure SearchResult where
  text : String
  metadata : DocumentMetadata
  score : Int

/-- The keep-predicate of `removeRepoFromIndex`:
`metadata.source !== 'github' || metadata.repo !== repoKey`. -/
def keepItem (repoKey : String) (item : Item) : Bool :=
  item.metadata.source != some Source.github ||
    item.metadata.repo != some repoKey

/-- The rebuild performed by `removeRepoFromIndex` on an existing index:
list all items, filter the keepers, destroy and recreate the index, and
re-insert the keepers WITHOUT their original ids. -/
def removeRepoRebuild (idx : LocalIndex) (repoKey : String) : LocalIndex :=
  let allItems := listItems idx
  let itemsToKeep := allItems.filter (keepItem repoKey)
  let fresh := recreateEmptyIndex idx
  itemsToKeep.foldl (fun st item => insertItem st item.vector item.metadata)
    fresh

/-- `VectorStore.removeRepoFromIndex(repoKey)`: no-op when the index is
`null`, otherwise the rebuild above. -/
def removeRepoFromIndex (vs : VectorStore) (repoKey : String) : VectorStore :=
  match vs.index with
  | none => vs
  | some idx => { vs with index := some (removeRepoRebuild idx repoKey) }

/-- `VectorStore.search(query, topK)`: empty when the index or the
embedder is missing, otherwise map the store's query hits to results
(`text: metadata.text || ''`). -/
def search (vs : VectorStore) (query : String) (topK : Nat) :
    List SearchResult :=
  match vs.index, vs.embedder with
  | some idx, some emb =>
    (queryItems idx (emb query) topK).map
      (fun r => { text := r.1.metadata.text.getD "",
                  metadata := r.1.metadata, score := r.2 })
  | _, _ => []

/-- One file's ingestion step of `indexWorkspace`: chunk the text with the
default parameters (100, 20) and insert one item per chunk with
workspace metadata. -/
def insertChunksOfFile (emb : String → List Int) (file : String)
    (text : String) (idx : LocalIndex) : LocalIndex :=
  (chunkDocumentR text 100 20).foldl
    (fun st c => insertItem st (emb c.text)
      { file := file, line := some c.startLine,
        source := some Source.workspace, repo := none, text := some c.text })
    idx

/-- The per-file loop of `indexWorkspace`: the cancellation token is
polled before each file; cancellation stops the loop, committing the
already-inserted items. -/
def ingestFiles (emb : String → List Int) (token : Nat → Bool) :
    LocalIndex → List (String × String) → Nat → LocalIndex
  | idx, [], _ => idx
  | idx, (file, text) :: rest, i =>
    if token i then idx
    else ingestFiles emb token (insertChunksOfFile emb file text idx) rest
      (i + 1)

/-- `VectorStore.indexWorkspace`: throws `'Vector store not initialized'`
when the index or the embedder is missing; otherwise ingests the files
found by the host's file search. -/
def indexWorkspace (vs : VectorStore) (files : List (String × String))
    (token : Nat → Bool) : Except String VectorStore :=
  match vs.index, vs.embedder with
  | some idx, some emb =>
    Except.ok { vs with index := some (ingestFiles emb token idx files 0) }
  | _, _ => Except.error "Vector store not initialized"

/-! ### Chunker lemmas -/

/-- `splitLinesAux` never returns the empty list. -/
theorem splitLinesAux_ne_nil (acc : List Char) (l : List Char) :
    splitLinesAux acc l ≠ [] := by
  induction l generalizing acc with
  | nil => simp [splitLinesAux]
  | cons c rest ih =>
    simp only [splitLinesAux]
    split
    · simp
    · exact ih _

/-- Splitting a string on newlines always yields at least one line. -/
theorem jsSplit_length_pos (s : String) : 0 < (jsSplit s).length :=
  List.length_pos.mpr (splitLinesAux_ne_nil [] s.data)

/-- For a non-negative start index within the list, `jsSlice` coincides
with `drop`/`take`. -/
theorem jsSlice_eq_drop_take (xs : List String) (i ws : Nat)
    (hi : i ≤ xs.length) :
    jsSlice xs (i : Int) ((i : Int) + (ws : Int)) = (xs.drop i).take ws := by
  simp only [jsSlice]
  have h1 : ¬ ((i : Int) < 0) := by omega
  have h2 : ¬ ((i : Int) + (ws : Int) < 0) := by omega
  rw [if_neg h1, if_neg h2]
  have hs : (min (i : Int) ((xs.length : Nat) : Int)).toNat = i := by omega
  rw [hs]
  have he : (min ((i : Int) + (ws : Int)) ((xs.length : Nat) : Int)).toNat - i =
      min ws (xs.length - i) := by omega
  rw [he]
  rcases le_or_lt ws (xs.length - i) with h | h
  · rw [Nat.min_eq_left h]
  · rw [Nat.min_eq_right (Nat.le_of_lt h)]
    rw [List.take_of_length_le (by simp), List.take_of_length_le (by simp; omega)]

/-- With a non-positive step and a non-empty line list, no amount of fuel
makes the `chunkDocument` loop exit: the loop diverges. -/
theorem chunkLoopF_none (lines : List String) (chunkSize : Nat) (step : Int)
    (hstep : step ≤ 0) (hlen : 0 < lines.length) :
    ∀ (fuel : Nat) (i : Int), i ≤ 0 →
      chunkLoopF lines chunkSize step fuel i = none := by
  intro fuel
  induction fuel with
  | zero =>
    intro i hi
    rw [chunkLoopF]
    rw [if_pos (by omega)]
  | succ f ih =>
    intro i hi
    rw [chunkLoopF]
    rw [if_pos (by omega)]
    simp only
    rw [ih (i + step) (by omega)]

/-- With a positive step and sufficient fuel, the fuelled loop computes the
closed-form window list. -/
theorem chunkLoopF_eq_some (lines : List String) (chunkSize step : Nat)
    (hstep : 0 < step) :
    ∀ (fuel i : Nat), lines.length - i < fuel →
      chunkLoopF lines chunkSize (step : Int) fuel (i : Int) =
        some ((windowStartsFrom lines.length step i).filterMap
          (fun j =>
            let c := chunkAt lines chunkSize j
            if 0 < (jsTrim c).length then
              some { text := c, startLine := (j : Int) + 1 }
            else
              none)) := by
  intro fuel
  induction fuel with
  | zero => intro i hfu; omega
  | succ f ih =>
    intro i hfu
    rw [chunkLoopF, windowStartsFrom]
    by_cases hi : i < lines.length
    · rw [if_pos (by exact_mod_cast hi)]
      simp only
      have hrec := ih (i + step) (by omega)
      have hcast : (i : Int) + (step : Int) = ((i + step : Nat) : Int) := by
        push_cast; ring
      rw [hcast, hrec]
      rw [dif_pos ⟨hstep, hi⟩]
      rw [List.filterMap_cons]
      rw [jsSlice_eq_drop_take lines i chunkSize (Nat.le_of_lt hi)]
      simp only [chunkAt]
      split
      · rfl
      · rfl
    · rw [if_neg (by exact_mod_cast hi)]
      rw [dif_neg (by omega)]
      rfl

/-- For valid parameters (`overlap < chunkSize`), `chunkDocument` is the
closed-form `chunkDocumentR`. -/
theorem chunkDocument_eq_run (text : String) (chunkSize overlap : Nat)
    (h : overlap < chunkSize) :
    chunkDocument text chunkSize overlap =
      some (chunkDocumentR text chunkSize overlap) := by
  unfold chunkDocument chunkDocumentR
  have hcast : (chunkSize : Int) - (overlap : Int) =
      ((chunkSize - overlap : Nat) : Int) := by omega
  rw [hcast]
  have h0 : ((0 : Nat) : Int) = (0 : Int) := rfl
  rw [← h0]
  exact chunkLoopF_eq_some (jsSplit text) chunkSize (chunkSize - overlap)
    (by omega) ((jsSplit text).length + 1) 0 (by omega)

/-- Membership in the candidate-window start list: exactly the indices
`i + k·step` below `len`. -/
theorem mem_windowStartsFrom {len step : Nat} (hs : 0 < step) (i j : Nat) :
    j ∈ windowStartsFrom len step i ↔ ∃ k, j = i + k * step ∧ j < len := by
  rw [windowStartsFrom]
  by_cases hi : i < len
  · rw [dif_pos ⟨hs, hi⟩]
    rw [List.mem_cons, mem_windowStartsFrom hs (i + step) j]
    constructor
    · rintro (rfl | ⟨k, rfl, hk⟩)
      · exact ⟨0, by omega, hi⟩
      · refine ⟨k + 1, ?_, hk⟩
        have : (k + 1) * step = k * step + step := by ring
        omega
    · rintro ⟨k, rfl, hk⟩
      match k with
      | 0 => left; omega
      | Nat.succ k' =>
        right
        refine ⟨k', ?_, hk⟩
        have : Nat.succ k' * step = k' * step + step := Nat.succ_mul k' step
        omega
  · rw [dif_neg (by omega)]
    simp only [List.not_mem_nil, false_iff, not_exists]
    rintro k ⟨rfl, hk⟩
    have : i ≤ i + k * step := by omega
    omega
termination_by len - i
decreasing_by omega

/-- The candidate-window start list is strictly increasing, consecutive
entries separated by positive multiples of `step`. -/
theorem pairwise_windowStartsFrom {len step : Nat} (hs : 0 < step) (i : Nat) :
    (windowStartsFrom len step i).Pairwise
      (fun a b => a < b ∧ ∃ m : Nat, 0 < m ∧ b = a + m * step) := by
  rw [windowStartsFrom]
  by_cases hi : i < len
  · rw [dif_pos ⟨hs, hi⟩]
    refine List.Pairwise.cons ?_ (pairwise_windowStartsFrom hs (i + step))
    intro j hj
    rcases (mem_windowStartsFrom hs (i + step) j).1 hj with ⟨k, rfl, hk⟩
    have hmul : (k + 1) * step = k * step + step := by ring
    exact ⟨by omega, k + 1, by omega, by omega⟩
  · rw [dif_neg (by omega)]
    exact List.Pairwise.nil
termination_by len - i
decreasing_by omega

/-- A non-whitespace element survives `dropWhile isWhitespace`. -/
theorem mem_dropWhile_of_not (p : Char → Bool) (l : List Char) (c : Char)
    (hc : c ∈ l) (hpc : p c = false) : c ∈ l.dropWhile p := by
  induction l with
  | nil => cases hc
  | cons a t ih =>
    rw [List.dropWhile_cons]
    rcases List.mem_cons.1 hc with rfl | hct
    · rw [hpc]
      simp
    · split
      · exact ih hct
      · exact List.mem_cons_of_mem a hct

/-- The trimmed content of a string is non-empty exactly when the string
contains a non-whitespace character. -/
theorem jsTrim_pos_iff (s : String) :
    0 < (jsTrim s).length ↔ ∃ c ∈ s.data, c.isWhitespace = false := by
  have hlen : (jsTrim s).length =
      (((s.data.dropWhile Char.isWhitespace).reverse.dropWhile
        Char.isWhitespace).reverse).length := rfl
  rw [hlen, List.length_reverse, List.length_pos]
  constructor
  · intro hne
    have := mt List.dropWhile_eq_nil_iff.mpr hne
    push_neg at this
    obtain ⟨c, hc, hcw⟩ := this
    have hc1 : c ∈ (s.data.dropWhile Char.isWhitespace).reverse := hc
    have hc2 : c ∈ s.data :=
      (List.dropWhile_sublist Char.isWhitespace).subset
        (List.mem_reverse.1 hc1)
    exact ⟨c, hc2, by simpa using hcw⟩
  · rintro ⟨c, hc, hcw⟩
    have h1 : c ∈ s.data.dropWhile Char.isWhitespace :=
      mem_dropWhile_of_not _ _ _ hc hcw
    have h2 : c ∈ (s.data.dropWhile Char.isWhitespace).reverse :=
      List.mem_reverse.2 h1
    have h3 : c ∈ (s.data.dropWhile Char.isWhitespace).reverse.dropWhile
        Char.isWhitespace :=
      mem_dropWhile_of_not _ _ _ h2 hcw
    exact List.ne_nil_of_mem h3

/-- Every character of a member string occurs in the `jsJoin` of the list. -/
theorem mem_data_jsJoin {ls : List String} {x : String} (hx : x ∈ ls)
    {c : Char} (hc : c ∈ x.data) : c ∈ (jsJoin ls).data := by
  induction ls with
  | nil => cases hx
  | cons s rest ih =>
    cases rest with
    | nil =>
      rcases List.mem_cons.1 hx with rfl | h
      · exact hc
      · cases h
    | cons r rest2 =>
      show c ∈ (s ++ "\n" ++ jsJoin (r :: rest2)).data
      rw [String.data_append, String.data_append]
      rcases List.mem_cons.1 hx with rfl | h
      · exact List.mem_append_left _ (List.mem_append_left _ hc)
      · exact List.mem_append_right _ (ih h)

/-- If some member string of `ls` has non-empty trimmed content, so does
their newline join. -/
theorem jsTrim_jsJoin_pos {ls : List String} {x : String} (hx : x ∈ ls)
    (hpos : 0 < (jsTrim x).length) : 0 < (jsTrim (jsJoin ls)).length := by
  rw [jsTrim_pos_iff] at hpos ⊢
  obtain ⟨c, hc, hcw⟩ := hpos
  exact ⟨c, mem_data_jsJoin hx hc, hcw⟩

/-- Unpacking membership in `chunkDocumentR`: every emitted chunk arises
from a kept candidate window. -/
theorem mem_chunkDocumentR {text : String} {chunkSize overlap : Nat}
    {c : Chunk} (hc : c ∈ chunkDocumentR text chunkSize overlap) :
    ∃ j ∈ windowStartsFrom (jsSplit text).length (chunkSize - overlap) 0,
      c = { text := chunkAt (jsSplit text) chunkSize j,
            startLine := (j : Int) + 1 } ∧
      0 < (jsTrim (chunkAt (jsSplit text) chunkSize j)).length := by
  unfold chunkDocumentR at hc
  rw [List.mem_filterMap] at hc
  obtain ⟨j, hj, hf⟩ := hc
  simp only at hf
  split at hf
  · exact ⟨j, hj, (Option.some_inj.1 hf).symm, by assumption⟩
  · cases hf

/-- Conversely, a kept candidate window contributes a chunk. -/
theorem chunk_mem_chunkDocumentR {text : String} {chunkSize overlap : Nat}
    {j : Nat}
    (hj : j ∈ windowStartsFrom (jsSplit text).length (chunkSize - overlap) 0)
    (hkeep : 0 < (jsTrim (chunkAt (jsSplit text) chunkSize j)).length) :
    ({ text := chunkAt (jsSplit text) chunkSize j,
       startLine := (j : Int) + 1 } : Chunk) ∈
      chunkDocumentR text chunkSize overlap := by
  unfold chunkDocumentR
  rw [List.mem_filterMap]
  refine ⟨j, hj, ?_⟩
  simp only
  rw [if_pos hkeep]

/-- C2 (counterexample): on text `"a\n\nb"` with window size 1 and
overlap 0, the emitted chunks have startLines 1 and 3 — the middle blank
window is dropped, so consecutive emitted startLines do NOT increase by
exactly `windowSize − overlap = 1` as the claim states. -/
theorem chunkDocument_startLine_gap_counterexample :
    chunkDocument "a\n\nb" 1 0 =
      some [{ text := "a", startLine := 1 }, { text := "b", startLine := 3 }]
    ∧ ¬ List.Chain'
        (fun c c' : Chunk => c'.startLine = c.startLine + ((1 : Int) - (0 : Int)))
        [({ text := "a", startLine := 1 } : Chunk),
         { text := "b", startLine := 3 }] := by
  constructor
  · decide
  · intro hchain
    rw [List.chain'_cons] at hchain
    have h := hchain.1
    simp only at h
    omega

/-- C2 (amended): for `overlap < windowSize` the chunker terminates and
equals the closed-form window construction: candidate windows start at
0-based indices `0, step, 2·step, …` (so the FIRST candidate window starts
at line 1); every emitted chunk's `startLine` is `1 + k·step` for some `k`
and its text is the `windowSize`-line window there; emitted chunks all
have non-empty trimmed content; emitted `startLine`s are strictly
increasing, consecutive ones separated by positive multiples of `step`
(not always exactly `step`, since blank windows are dropped); and every
line of the text with non-empty trimmed content is covered by at least one
emitted chunk's line range. -/
theorem chunkDocument_window_spec (text : String) (chunkSize overlap : Nat)
    (h : overlap < chunkSize) :
    chunkDocument text chunkSize overlap =
      some (chunkDocumentR text chunkSize overlap)
    ∧ (∀ c ∈ chunkDocumentR text chunkSize overlap,
        ∃ k : Nat,
          c.startLine = 1 + ((k * (chunkSize - overlap) : Nat) : Int) ∧
          c.text = chunkAt (jsSplit text) chunkSize (k * (chunkSize - overlap)))
    ∧ (∀ c ∈ chunkDocumentR text chunkSize overlap,
        0 < (jsTrim c.text).length)
    ∧ List.Chain'
        (fun c c' => c.startLine < c'.startLine ∧
          ∃ m : Nat, 0 < m ∧
            c'.startLine = c.startLine + ((m * (chunkSize - overlap) : Nat) : Int))
        (chunkDocumentR text chunkSize overlap)
    ∧ (windowStartsFrom (jsSplit text).length (chunkSize - overlap) 0).head? =
        some 0
    ∧ (∀ (j : Nat) (hj : j < (jsSplit text).length),
        0 < (jsTrim ((jsSplit text).get ⟨j, hj⟩)).length →
        ∃ c ∈ chunkDocumentR text chunkSize overlap,
          c.startLine ≤ (j : Int) + 1 ∧
          (j : Int) + 1 < c.startLine + (chunkSize : Int)) := by
  have hstep : 0 < chunkSize - overlap := by omega
  refine ⟨chunkDocument_eq_run text chunkSize overlap h, ?_, ?_, ?_, ?_, ?_⟩
  · intro c hc
    obtain ⟨j, hj, rfl, hkeep⟩ := mem_chunkDocumentR hc
    obtain ⟨k, rfl, hlt⟩ := (mem_windowStartsFrom hstep 0 j).1 hj
    exact ⟨k, by push_cast; ring, by simp⟩
  · intro c hc
    obtain ⟨j, hj, rfl, hkeep⟩ := mem_chunkDocumentR hc
    exact hkeep
  · have hpw := @pairwise_windowStartsFrom ((jsSplit text).length)
      (chunkSize - overlap) hstep 0
    unfold chunkDocumentR
    refine List.Pairwise.chain' ?_
    refine List.Pairwise.filterMap _ ?_ hpw
    rintro a b ⟨hab, m, hm, rfl⟩ c hc d hd
    simp only at hc hd
    split at hc
    · split at hd
      · cases hc; cases hd
        refine ⟨by push_cast; omega, m, hm, by push_cast; ring⟩
      · cases hd
    · cases hc
  · rw [windowStartsFrom]
    rw [dif_pos ⟨hstep, jsSplit_length_pos text⟩]
    rfl
  · intro j hj hline
    set lines := jsSplit text with hlines
    set step := chunkSize - overlap with hstepdef
    have hcomm : j / step * step = step * (j / step) := Nat.mul_comm _ _
    have hdm := Nat.div_add_mod j step
    have hmod := Nat.mod_lt j hstep
    set s := j / step * step with hs
    have hsj : s ≤ j := Nat.div_mul_le_self j step
    have hjs : j < s + step := by omega
    have hslt : s < lines.length := by omega
    have hsmem : s ∈ windowStartsFrom lines.length step 0 :=
      (mem_windowStartsFrom hstep 0 s).2 ⟨j / step, by omega, hslt⟩
    have hwin : lines.get ⟨j, hj⟩ ∈ (lines.drop s).take chunkSize := by
      have hlen : j - s < ((lines.drop s).take chunkSize).length := by
        simp only [List.length_take, List.length_drop]
        omega
      have hget : ((lines.drop s).take chunkSize)[j - s] =
          lines.get ⟨j, hj⟩ := by
        rw [List.getElem_take, List.getElem_drop]
        congr 1
        omega
      rw [← hget]
      exact List.getElem_mem hlen
    have hkeep : 0 < (jsTrim (chunkAt lines chunkSize s)).length :=
      jsTrim_jsJoin_pos hwin hline
    refine ⟨{ text := chunkAt lines chunkSize s,
              startLine := (s : Int) + 1 },
      chunk_mem_chunkDocumentR hsmem hkeep, by simp; omega, by simp; omega⟩

/-- C2 witness: a concrete run of the amended specification. -/
theorem chunkDocument_window_spec_witness :
    chunkDocument "hello\nworld" 2 1 = some (chunkDocumentR "hello\nworld" 2 1) :=
  (chunkDocument_window_spec "hello\nworld" 2 1 (by omega)).1

/-- C3 (counterexample): with `overlap = windowSize = 1` on the one-line
text `"a"`, no amount of fuel makes the `chunkDocument` loop exit — the
call diverges instead of failing with a configuration error, refuting
"chunkDocument terminates on every input". -/
theorem chunkDocument_diverges_counterexample : ¬ ChunkTerminates "a" 1 1 := by
  rintro ⟨fuel, hf⟩
  rw [chunkLoopF_none (jsSplit "a") 1 _ (by omega) (jsSplit_length_pos "a")
    fuel 0 le_rfl] at hf
  cases hf

/-- C3 (amended): `chunkDocument` performs no call-time validation of
`overlap < windowSize`.  Violating the constraint is detected by nothing:
for `overlap ≥ windowSize` the loop never exits on any input (the line
list is always non-empty), while for `overlap < windowSize` the call
terminates on every input. -/
theorem chunkDocument_termination_iff (text : String)
    (chunkSize overlap : Nat) :
    (chunkSize ≤ overlap → ¬ ChunkTerminates text chunkSize overlap)
    ∧ (overlap < chunkSize → ChunkTerminates text chunkSize overlap) := by
  constructor
  · rintro hle ⟨fuel, hf⟩
    rw [chunkLoopF_none (jsSplit text) chunkSize _ (by omega)
      (jsSplit_length_pos text) fuel 0 le_rfl] at hf
    cases hf
  · intro hlt
    refine ⟨(jsSplit text).length + 1, ?_⟩
    have hrun := chunkDocument_eq_run text chunkSize overlap hlt
    simp only [chunkDocument] at hrun
    rw [hrun]
    rfl

/-- C3 witness: the amended dichotomy at concrete parameters. -/
theorem chunkDocument_termination_iff_witness :
    ¬ ChunkTerminates "x" 2 2 ∧ ChunkTerminates "x" 2 1 :=
  ⟨(chunkDocument_termination_iff "x" 2 2).1 (by omega),
   (chunkDocument_termination_iff "x" 2 1).2 (by omega)⟩

/-! ### Index store and VectorStore lemmas -/

/-- The payload of an item, forgetting the store-assigned id. -/
def itemData (it : Item) : List Int × DocumentMetadata :=
  (it.vector, it.metadata)

/-- Re-inserting a list of items without ids: the payloads are appended in
order and the store assigns the consecutive fresh identifiers. -/
theorem foldl_insertItem (l : List Item) (st : LocalIndex) :
    (l.foldl (fun s it => insertItem s it.vector it.metadata) st).items.map
        itemData =
      st.items.map itemData ++ l.map itemData
    ∧ (l.foldl (fun s it => insertItem s it.vector it.metadata) st).nextId =
      st.nextId + l.length
    ∧ (l.foldl (fun s it => insertItem s it.vector it.metadata) st).items.map
        Item.id =
      st.items.map Item.id ++ List.range' st.nextId l.length := by
  induction l generalizing st with
  | nil => simp
  | cons it rest ih =>
    simp only [List.foldl_cons]
    obtain ⟨h1, h2, h3⟩ := ih (insertItem st it.vector it.metadata)
    refine ⟨?_, ?_, ?_⟩
    · rw [h1]
      simp [insertItem, itemData]
    · rw [h2]
      simp [insertItem]
      omega
    · rw [h3]
      simp only [insertItem, List.map_append, List.map_cons, List.map_nil,
        List.length_cons]
      rw [List.append_assoc]
      congr 1

/-- The rebuild of `removeRepoFromIndex`: kept payloads in order, ids
freshly assigned as `0, 1, …`. -/
theorem removeRepoRebuild_spec (idx : LocalIndex) (repoKey : String) :
    (removeRepoRebuild idx repoKey).items.map itemData =
      (idx.items.filter (keepItem repoKey)).map itemData
    ∧ (removeRepoRebuild idx repoKey).items.map Item.id =
      List.range' 0 (idx.items.filter (keepItem repoKey)).length
    ∧ (removeRepoRebuild idx repoKey).nextId =
      (idx.items.filter (keepItem repoKey)).length := by
  unfold removeRepoRebuild listItems recreateEmptyIndex
  obtain ⟨h1, h2, h3⟩ :=
    foldl_insertItem (idx.items.filter (keepItem repoKey))
      { items := [], nextId := 0 }
  exact ⟨by simpa using h1, by simpa using h3, by simpa using h2⟩

/-- C1: `removeRepoFromIndex(repoKey)` on an existing index is a pure
filter implemented by rebuild: the post-removal payload sequence equals
the pre-removal sequence minus exactly the items with
`source = 'github' ∧ repo = repoKey`; the re-inserted items carry fresh,
pairwise-distinct store-assigned ids, and a subsequent insert receives an
identifier distinct from all existing ones. -/
theorem removeRepoFromIndex_pure_filter (vs : VectorStore) (repoKey : String)
    (idx : LocalIndex) (h : vs.index = some idx) :
    (removeRepoFromIndex vs repoKey).index =
      some (removeRepoRebuild idx repoKey)
    ∧ (removeRepoRebuild idx repoKey).items.map itemData =
        (idx.items.filter (keepItem repoKey)).map itemData
    ∧ (∀ it : Item, keepItem repoKey it = false ↔
        (it.metadata.source = some Source.github ∧
          it.metadata.repo = some repoKey))
    ∧ ((removeRepoRebuild idx repoKey).items.map Item.id).Nodup
    ∧ (∀ (v : List Int) (m : DocumentMetadata),
        ((insertItem (removeRepoRebuild idx repoKey) v m).items.map
          Item.id).Nodup) := by
  obtain ⟨h1, h2, h3⟩ := removeRepoRebuild_spec idx repoKey
  refine ⟨?_, h1, ?_, ?_, ?_⟩
  · unfold removeRepoFromIndex
    rw [h]
  · intro it
    simp [keepItem]
  · rw [h2]
    exact List.nodup_range' 0 _
  · intro v m
    simp only [insertItem, List.map_append, List.map_cons, List.map_nil]
    rw [h2, h3]
    have : List.range' 0 ((idx.items.filter (keepItem repoKey)).length) ++
        [(idx.items.filter (keepItem repoKey)).length] =
        List.range' 0 ((idx.items.filter (keepItem repoKey)).length + 1) := by
      rw [List.range'_1_concat]
      simp
    rw [this]
    exact List.nodup_range' 0 _

/-- A two-item index (one github item for repo `o/r`, one workspace item)
used to instantiate the filter-rebuild theorem. -/
def exampleIndex : LocalIndex :=
  ⟨[⟨7, [1, 0], ⟨"a.ts", some 1, some Source.github, some "o/r", some "gh"⟩⟩,
    ⟨3, [0, 1], ⟨"b.ts", some 1, some Source.workspace, none, some "ws"⟩⟩],
   11⟩

/-- C1 witness: the theorem instantiated on a concrete two-item index. -/
theorem removeRepoFromIndex_pure_filter_witness :
    (removeRepoFromIndex { index := some exampleIndex, embedder := none }
        "o/r").index = some (removeRepoRebuild exampleIndex "o/r")
    ∧ (removeRepoRebuild exampleIndex "o/r").items.map itemData =
        (exampleIndex.items.filter (keepItem "o/r")).map itemData :=
  ⟨(removeRepoFromIndex_pure_filter
      { index := some exampleIndex, embedder := none } "o/r" exampleIndex
      rfl).1,
   (removeRepoFromIndex_pure_filter
      { index := some exampleIndex, embedder := none } "o/r" exampleIndex
      rfl).2.1⟩

/-- Elements of `insertByScore x l` are `x` or elements of `l`. -/
theorem mem_insertByScore (x y : Item × Int) (l : List (Item × Int))
    (hy : y ∈ insertByScore x l) : y = x ∨ y ∈ l := by
  induction l with
  | nil => simpa [insertByScore] using hy
  | cons z zs ih =>
    simp only [insertByScore] at hy
    split at hy
    · rcases List.mem_cons.1 hy with rfl | hy2
      · exact Or.inl rfl
      · exact Or.inr hy2
    · rcases List.mem_cons.1 hy with rfl | hy2
      · exact Or.inr (List.mem_cons_self _ _)
      · rcases ih hy2 with rfl | hy3
        · exact Or.inl rfl
        · exact Or.inr (List.mem_cons_of_mem _ hy3)

/-- `insertByScore` preserves sortedness by non-increasing score. -/
theorem pairwise_insertByScore (x : Item × Int) (l : List (Item × Int))
    (h : l.Pairwise (fun a b => b.2 ≤ a.2)) :
    (insertByScore x l).Pairwise (fun a b => b.2 ≤ a.2) := by
  induction l with
  | nil => simp [insertByScore]
  | cons y ys ih =>
    rw [List.pairwise_cons] at h
    simp only [insertByScore]
    split
    · rw [List.pairwise_cons]
      refine ⟨?_, List.Pairwise.cons h.1 h.2⟩
      intro z hz
      rcases List.mem_cons.1 hz with rfl | hz2
      · omega
      · have := h.1 z hz2
        omega
    · rw [List.pairwise_cons]
      refine ⟨?_, ih h.2⟩
      intro z hz
      rcases mem_insertByScore x z ys hz with rfl | hz2
      · omega
      · exact h.1 z hz2

/-- The sort used by the query model is sorted by non-increasing score. -/
theorem pairwise_sortByScoreDesc (l : List (Item × Int)) :
    (sortByScoreDesc l).Pairwise (fun a b => b.2 ≤ a.2) := by
  unfold sortByScoreDesc
  induction l with
  | nil => simp
  | cons x xs ih => exact pairwise_insertByScore x _ ih

/-- C4: `search(q, k)` returns at most `k` results sorted by
non-increasing score, and returns an empty sequence — not an error — when
the index is missing (never created) or empty, or when the embedder is
missing. -/
theorem search_spec (vs : VectorStore) (q : String) (k : Nat) :
    (search vs q k).length ≤ k
    ∧ List.Chain' (fun a b => b.score ≤ a.score) (search vs q k)
    ∧ (vs.index = none → search vs q k = [])
    ∧ (∀ idx, vs.index = some idx → idx.items = [] → search vs q k = []) := by
  obtain ⟨oi, oe⟩ := vs
  cases oi with
  | none =>
    cases oe <;> simp [search]
  | some idx =>
    cases oe with
    | none => simp [search]
    | some emb =>
      refine ⟨?_, ?_, ?_, ?_⟩
      · simp only [search, List.length_map, queryItems]
        exact List.length_take_le k _
      · simp only [search]
        refine List.Pairwise.chain' ?_
        rw [List.pairwise_map]
        refine List.Pairwise.sublist (List.take_sublist k _) ?_
        exact pairwise_sortByScoreDesc _
      · intro hnone
        cases hnone
      · intro idx2 hsome hempty
        cases hsome
        simp [search, queryItems, hempty, sortByScoreDesc]

/-- A store with an index and an embedder, used to instantiate the search
specification. -/
def exampleStore : VectorStore :=
  { index := some exampleIndex, embedder := some (fun _ => [1, 1]) }

/-- C4 witness: the search specification at concrete stores — an
uninitialized store yields the empty result, a populated store respects
the bound `k`. -/
theorem search_spec_witness :
    search { index := none, embedder := none } "query" 3 = []
    ∧ (search exampleStore "query" 1).length ≤ 1 :=
  ⟨(search_spec { index := none, embedder := none } "query" 3).2.2.1 rfl,
   (search_spec exampleStore "query" 1).1⟩

/-- C9 (counterexample): with the Embedding Provider and Index Store both
unavailable, `search` silently returns an empty result and
`removeRepoFromIndex` silently no-ops — neither operation fails or
surfaces the unavailability to the caller, refuting the claim that every
operation does. -/
theorem notInitialized_silent_counterexample :
    search { index := none, embedder := none } "q" 5 = []
    ∧ removeRepoFromIndex { index := none, embedder := none } "owner/repo" =
      { index := none, embedder := none } :=
  ⟨rfl, rfl⟩

/-- C9 (amended): when the Embedding Provider or the Index Store is
unavailable, only ingestion (`indexWorkspace`) fails fatally with
`'Vector store not initialized'`; `search` silently returns the empty
sequence, and `removeRepoFromIndex` silently returns without touching
anything when the index is missing. -/
theorem notInitialized_behaviour (vs : VectorStore)
    (files : List (String × String)) (token : Nat → Bool) (q : String)
    (k : Nat) (repoKey : String)
    (h : vs.index = none ∨ vs.embedder = none) :
    indexWorkspace vs files token =
      Except.error "Vector store not initialized"
    ∧ search vs q k = []
    ∧ (vs.index = none → removeRepoFromIndex vs repoKey = vs) := by
  obtain ⟨oi, oe⟩ := vs
  rcases h with h | h
  · cases h
    cases oe <;> simp [indexWorkspace, search, removeRepoFromIndex]
  · cases h
    cases oi <;> simp [indexWorkspace, search, removeRepoFromIndex]

/-- C9 witness: the amended behaviour at a concrete uninitialized store. -/
theorem notInitialized_behaviour_witness :
    indexWorkspace { index := none, embedder := none } [] (fun _ => false) =
      Except.error "Vector store not initialized"
    ∧ search { index := none, embedder := none } "hello" 2 = [] :=
  ⟨(notInitialized_behaviour { index := none, embedder := none } []
      (fun _ => false) "hello" 2 "r" (Or.inl rfl)).1,
   (notInitialized_behaviour { index := none, embedder := none } []
      (fun _ => false) "hello" 2 "r" (Or.inl rfl)).2.1⟩

/-! ## Chat participant (`src/ragChatParticipant.ts`)

The pieces of `RagChatParticipant.handleRequest` the claims are about:
command resolution (lines 98–129), the history section of the assembled
prompt (lines 174–199), and the agentic tool-call loop (lines 264–344). -/

/-- A conversation turn of the chat history: `ChatRequestTurn` (user, with
optional slash command) or `ChatResponseTurn` (assistant, with its
extracted markdown text). -/
inductive ConversationTurn where
  | user (command : Option String) (prompt : String)
  | assistant (text : String)
  deriving DecidableEq

/-- The `cmdPrefix` of a rendered user turn:
`message.command ? \x7b/$\x7bmessage.command\x7d \x7d : ''`. -/
def commandMark : Option String → String
  | some c => "/" ++ c ++ " "
  | none => ""

/-- The rendering of one history turn inside the prompt's
`# Previous Conversation` section (lines 179–199): a user turn renders as
`**User**: <command-prefix><prompt>`; an assistant turn renders as
`**Assistant**: <text>` with text over 500 characters truncated and
suffixed with an ellipsis marker, and renders nothing at all when its
extracted text is empty. -/
def renderTurn : ConversationTurn → String
  | .user cmd prompt => "**User**: " ++ commandMark cmd ++ prompt ++ "\n\n"
  | .assistant t =>
    if t = "" then ""
    else
      "**Assistant**: " ++
        (if 500 < jsLength t then jsSubstringTo t 500 ++ "..." else t) ++
        "\n\n"

/-- `array.slice(-n)`: the last `n` elements (all of them when the array
is shorter). -/
def sliceLast {α : Type} (n : Nat) (l : List α) : List α :=
  l.drop (l.length - n)

/-- Sequential string accumulation (the TypeScript `+=` chain). -/
def concatRendered : List String → String
  | [] => ""
  | s :: rest => s ++ concatRendered rest

/-- The rendered history turns: `context.history.slice(-6)` mapped through
the per-turn rendering and accumulated. -/
def renderHistory (history : List ConversationTurn) : String :=
  concatRendered ((sliceLast 6 history).map renderTurn)

/-! ### Command resolution (lines 98–129) -/

/-- A character matched by `[a-zA-Z0-9\-_]`. -/
def isCommandChar (c : Char) : Bool :=
  c.isAlphanum || c = '-' || c = '_'

/-- The leading `/token` of a raw prompt, per
`prompt.trim().match(/^\/([a-zA-Z0-9\-_]+)/)`: `none` when the trimmed
text does not start with `/` followed by at least one token character. -/
def parseSlashCommand (s : String) : Option String :=
  match (jsTrim s).data with
  | '/' :: rest =>
    let tok := rest.takeWhile isCommandChar
    if tok.isEmpty then none else some (String.mk tok)
  | _ => none

/-- The command carried by a history turn: an explicit command wins over a
leading `/token` in the raw prompt; assistant turns carry none. -/
def turnCommand : ConversationTurn → Option String
  | .user (some c) _ => some c
  | .user none p => parseSlashCommand p
  | .assistant _ => none

/-- The ordered command-resolution policy of `handleRequest`: the current
request's explicit command; else the leading `/token` of its raw prompt;
else the first command-carrying user turn scanning history from most
recent to oldest. -/
def resolveCommand (requestCommand : Option String) (prompt : String)
    (history : List ConversationTurn) : Option String :=
  match requestCommand with
  | some c => some c
  | none =>
    match parseSlashCommand prompt with
    | some c => some c
    | none => history.reverse.findSome? turnCommand

/-! ### Agentic tool-call loop (lines 264–344) -/

/-- A streamed response fragment: `LanguageModelTextPart` or
`LanguageModelToolCallPart`. -/
inductive Part where
  | text (value : String)
  | toolCall (name : String) (input : String) (callId : String)
  deriving DecidableEq

/-- A tool call extracted from the streamed parts. -/
structure ToolCallInfo where
  name : String
  input : String
  callId : String
  deriving DecidableEq

/-- A `LanguageModelToolResultPart`: the originating call id plus the tool
output. -/
structure ToolResult where
  callId : String
  content : String
  deriving DecidableEq

/-- A message of the accumulating conversation sent to the model. -/
inductive Message where
  | user (content : String)
  | assistant (parts : List Part)
  | userResults (results : List ToolResult)
  deriving DecidableEq

/-- The tool calls among the streamed parts, in emission order. -/
def toolCallsOf : List Part → List ToolCallInfo
  | [] => []
  | .text _ :: rest => toolCallsOf rest
  | .toolCall nm inp cid :: rest => ⟨nm, inp, cid⟩ :: toolCallsOf rest

/-- Whether the streamed parts contain at least one tool call
(`hasToolCalls`). -/
def hasToolCalls (parts : List Part) : Bool :=
  parts.any fun p =>
    match p with
    | .toolCall _ _ _ => true
    | .text _ => false

/-- The sequential tool-invocation pass of one `AwaitingTools` round
(lines 303–324): invoke each accumulated tool call in emission order; a
success contributes a `ToolResult` correlated by call id; a failure is
caught, turned into a markdown warning for the output sink, and excluded
from the result set. -/
def collectToolResults (invoke : String → String → Except String String) :
    List Part → List ToolResult × List String
  | [] => ([], [])
  | .text _ :: rest => collectToolResults invoke rest
  | .toolCall nm inp cid :: rest =>
    let r := collectToolResults invoke rest
    match invoke nm inp with
    | .ok content => (⟨cid, content⟩ :: r.1, r.2)
    | .error e =>
      (r.1,
        ("\n\n⚠️ Error using tool " ++ nm ++ ": " ++ e ++ "\n\n") :: r.2)

/-- One round of the agentic loop after the stream ended (lines 298–338):
with tool calls present, append the assistant message, run the tool pass,
and either feed all successful results back as one message and continue
(`true` = return to Requesting) or, with zero successes, stop
(`false` = Done).  Returns (messages, streamed warnings, continue?). -/
def stepRound (invoke : String → String → Except String String)
    (messages : List Message) (parts : List Part) :
    List Message × List String × Bool :=
  if hasToolCalls parts then
    let messages1 := messages ++ [Message.assistant parts]
    let collected := collectToolResults invoke parts
    if collected.1.isEmpty then (messages1, collected.2, false)
    else (messages1 ++ [Message.userResults collected.1], collected.2, true)
  else (messages, [], false)

/-- The agentic `while` loop (lines 269–339).  `cancel r` is the
cancellation token polled at the top of round `r` (before the `r`-th model
request); `respond r` is the part stream the model emits for the `r`-th
request; `fuel` bounds the number of iterations modelled.  The result is
`(number of model requests issued, exited-because-cancelled?)`, or `none`
when the fuel ran out before the loop exited. -/
def runLoop (cancel : Nat → Bool) (respond : Nat → List Part)
    (invoke : String → String → Except String String) :
    Nat → Nat → List Message → Option (Nat × Bool)
  | 0, _, _ => none
  | Nat.succ fuel, r, msgs =>
    if cancel r then some (r, true)
    else
      let stepped := stepRound invoke msgs (respond r)
      if stepped.2.2 then runLoop cancel respond invoke fuel (r + 1) stepped.1
      else some (r + 1, false)

/-! ### Chat participant lemmas -/

/-- The successful results of the sequential tool pass are exactly the
order-preserving successes over the emitted calls. -/
theorem collectToolResults_fst (invoke : String → String → Except String String) :
    ∀ parts : List Part,
      (collectToolResults invoke parts).1 =
        (toolCallsOf parts).filterMap (fun c =>
          match invoke c.name c.input with
          | .ok content => some { callId := c.callId, content := content }
          | .error _ => none)
  | [] => rfl
  | .text _ :: rest => collectToolResults_fst invoke rest
  | .toolCall nm inp cid :: rest => by
    simp only [collectToolResults, toolCallsOf, List.filterMap_cons]
    rw [← collectToolResults_fst invoke rest]
    cases invoke nm inp <;> rfl

/-- The warnings of the sequential tool pass are exactly the
order-preserving failures over the emitted calls. -/
theorem collectToolResults_snd (invoke : String → String → Except String String) :
    ∀ parts : List Part,
      (collectToolResults invoke parts).2 =
        (toolCallsOf parts).filterMap (fun c =>
          match invoke c.name c.input with
          | .ok _ => none
          | .error e =>
            some ("\n\n⚠️ Error using tool " ++ c.name ++ ": " ++ e ++ "\n\n"))
  | [] => rfl
  | .text _ :: rest => collectToolResults_snd invoke rest
  | .toolCall nm inp cid :: rest => by
    simp only [collectToolResults, toolCallsOf, List.filterMap_cons]
    rw [← collectToolResults_snd invoke rest]
    cases invoke nm inp <;> rfl

/-- C5: in an `AwaitingTools` round, the accumulated tool calls are
invoked sequentially in emission order — the fed-back result list is the
order-preserving `filterMap` of the invocation over the emitted calls,
each result correlated by its call id; a failing call is caught, reported
as a warning, and excluded without aborting the round; all successful
results are appended as ONE new message and the loop returns to
Requesting (`true`); with zero successes the loop stops (`false`, Done)
instead of issuing another request. -/
theorem awaitingTools_round_spec
    (invoke : String → String → Except String String)
    (messages : List Message) (parts : List Part) :
    (collectToolResults invoke parts).1 =
      (toolCallsOf parts).filterMap (fun c =>
        match invoke c.name c.input with
        | .ok content => some { callId := c.callId, content := content }
        | .error _ => none)
    ∧ (collectToolResults invoke parts).2 =
      (toolCallsOf parts).filterMap (fun c =>
        match invoke c.name c.input with
        | .ok _ => none
        | .error e =>
          some ("\n\n⚠️ Error using tool " ++ c.name ++ ": " ++ e ++ "\n\n"))
    ∧ (hasToolCalls parts = true → (collectToolResults invoke parts).1 ≠ [] →
        stepRound invoke messages parts =
          (messages ++ [Message.assistant parts,
            Message.userResults (collectToolResults invoke parts).1],
           (collectToolResults invoke parts).2, true))
    ∧ (hasToolCalls parts = true → (collectToolResults invoke parts).1 = [] →
        stepRound invoke messages parts =
          (messages ++ [Message.assistant parts],
           (collectToolResults invoke parts).2, false)) := by
  refine ⟨collectToolResults_fst invoke parts,
    collectToolResults_snd invoke parts, ?_, ?_⟩
  · intro hcalls hne
    unfold stepRound
    rw [if_pos hcalls]
    simp only
    rw [if_neg (by simpa [List.isEmpty_iff] using hne)]
    rw [List.append_assoc]
    rfl
  · intro hcalls hnil
    unfold stepRound
    rw [if_pos hcalls]
    simp only
    rw [if_pos (by simpa [List.isEmpty_iff] using hnil)]

/-- The model-emitted parts used to instantiate the round specification:
one text fragment, one succeeding tool call, one failing tool call. -/
def exampleParts : List Part :=
  [Part.text "thinking", Part.toolCall "good" "in1" "c1",
   Part.toolCall "bad" "in2" "c2"]

/-- An invocation function under which tool `good` succeeds and every
other tool fails. -/
def exampleInvoke : String → String → Except String String :=
  fun nm _ => if nm = "good" then Except.ok "result" else Except.error "boom"

/-- C5 witness: the round specification at a concrete round with one
succeeding and one failing tool call. -/
theorem awaitingTools_round_spec_witness :
    stepRound exampleInvoke [] exampleParts =
      ([Message.assistant exampleParts,
        Message.userResults (collectToolResults exampleInvoke exampleParts).1],
       (collectToolResults exampleInvoke exampleParts).2, true) :=
  (awaitingTools_round_spec exampleInvoke [] exampleParts).2.2.1
    (by decide) (by decide)

/-- Requests are issued only at rounds where the cancellation poll came
back false; a cancelled exit happens exactly at a round whose poll
observed the cancellation. -/
theorem runLoop_cancellation (cancel : Nat → Bool) (respond : Nat → List Part)
    (invoke : String → String → Except String String) :
    ∀ (fuel r0 : Nat) (msgs : List Message) (n : Nat) (c : Bool),
      runLoop cancel respond invoke fuel r0 msgs = some (n, c) →
        (∀ r, r0 ≤ r → r < n → cancel r = false)
        ∧ (c = true → cancel n = true) := by
  intro fuel
  induction fuel with
  | zero =>
    intro r0 msgs n c h
    cases h
  | succ f ih =>
    intro r0 msgs n c h
    rw [runLoop] at h
    by_cases hc : cancel r0
    · rw [if_pos hc] at h
      cases h
      exact ⟨fun r hr1 hr2 => absurd hr1 (by omega), fun _ => hc⟩
    · rw [if_neg hc] at h
      simp only at h
      split at h
      · obtain ⟨h1, h2⟩ := ih (r0 + 1) _ n c h
        refine ⟨?_, h2⟩
        intro r hr1 hr2
        rcases Nat.eq_or_lt_of_le hr1 with rfl | hlt
        · exact Bool.not_eq_true _ ▸ by simpa using hc
        · exact h1 r (by omega) hr2
      · cases h
        refine ⟨?_, by simp⟩
        intro r hr1 hr2
        have : r = r0 := by omega
        subst this
        simpa using hc

/-- C6: cancellation is polled at the top of every `Requesting`
transition: when it is already signaled before any round starts, the loop
issues zero model requests and exits in the cancelled state; in any run,
every issued request was preceded by a poll that observed no
cancellation — once cancellation is observed no further request is
issued — and a cancelled exit happens only on an observed cancellation. -/
theorem cancellation_spec (cancel : Nat → Bool) (respond : Nat → List Part)
    (invoke : String → String → Except String String) :
    (∀ (fuel : Nat) (msgs : List Message), 0 < fuel → cancel 0 = true →
      runLoop cancel respond invoke fuel 0 msgs = some (0, true))
    ∧ (∀ (fuel r0 : Nat) (msgs : List Message) (n : Nat) (c : Bool),
        runLoop cancel respond invoke fuel r0 msgs = some (n, c) →
          (∀ r, r0 ≤ r → r < n → cancel r = false)
          ∧ (c = true → cancel n = true)) := by
  refine ⟨?_, runLoop_cancellation cancel respond invoke⟩
  intro fuel msgs hfuel hc0
  match fuel, hfuel with
  | Nat.succ f, _ =>
    rw [runLoop]
    rw [if_pos hc0]

/-- C6 witness: with cancellation signaled from the start, a concrete run
issues zero requests and exits cancelled. -/
theorem cancellation_spec_witness :
    runLoop (fun _ => true) (fun _ => []) exampleInvoke 5 0 [] =
      some (0, true) :=
  (cancellation_spec (fun _ => true) (fun _ => []) exampleInvoke).1 5 []
    (by omega) rfl

/-- C7: the history section renders only the most recent 6 turns — with a
7-turn history, `slice(-6)` is exactly the history minus its oldest turn,
and the accumulated rendering ranges over exactly those 6 turns; a user
turn renders as `**User**: <command-prefix><prompt>`; an assistant turn
with non-empty extracted text renders as `**Assistant**: <text>`, the
text truncated to 500 characters plus an ellipsis marker exactly when it
exceeds 500 characters. -/
theorem promptHistory_spec (hist : List ConversationTurn)
    (h7 : hist.length = 7) :
    sliceLast 6 hist = hist.drop 1
    ∧ renderHistory hist = concatRendered ((hist.drop 1).map renderTurn)
    ∧ (∀ (cmd : Option String) (p : String),
        renderTurn (ConversationTurn.user cmd p) =
          "**User**: " ++ commandMark cmd ++ p ++ "\n\n")
    ∧ (∀ t : String, t ≠ "" → jsLength t ≤ 500 →
        renderTurn (ConversationTurn.assistant t) =
          "**Assistant**: " ++ t ++ "\n\n")
    ∧ (∀ t : String, t ≠ "" → 500 < jsLength t →
        renderTurn (ConversationTurn.assistant t) =
          "**Assistant**: " ++ jsSubstringTo t 500 ++ "..." ++ "\n\n") := by
  have hdrop : sliceLast 6 hist = hist.drop 1 := by
    unfold sliceLast
    rw [h7]
  refine ⟨hdrop, ?_, ?_, ?_, ?_⟩
  · unfold renderHistory
    rw [hdrop]
  · intro cmd p
    rfl
  · intro t ht hlen
    simp only [renderTurn]
    rw [if_neg ht, if_neg (by omega)]
  · intro t ht hlen
    simp only [renderTurn]
    rw [if_neg ht, if_pos hlen]
    simp [String.append_assoc]

/-- A 600-character assistant response. -/
def longResponse : String :=
  String.mk (List.replicate 600 'x')

/-- A 7-turn history whose most recent assistant turn is 600 characters
long. -/
def exampleHistory7 : List ConversationTurn :=
  [ConversationTurn.user none "q0", ConversationTurn.user none "q1",
   ConversationTurn.assistant "a1", ConversationTurn.user none "q2",
   ConversationTurn.assistant "a2",
   ConversationTurn.user (some "review") "q3",
   ConversationTurn.assistant longResponse]

set_option maxRecDepth 8192 in
/-- C7 witness: on the concrete 7-turn history, the oldest turn is
excluded and the 600-character assistant text is truncated to 500
characters plus the ellipsis marker. -/
theorem promptHistory_spec_witness :
    sliceLast 6 exampleHistory7 = exampleHistory7.drop 1
    ∧ renderTurn (ConversationTurn.assistant longResponse) =
      "**Assistant**: " ++ jsSubstringTo longResponse 500 ++ "..." ++ "\n\n" :=
  ⟨(promptHistory_spec exampleHistory7 rfl).1,
   (promptHistory_spec exampleHistory7 rfl).2.2.2.2 longResponse
     (by decide) (by decide)⟩

/-- The number of non-empty renderings among the turns the history
section processes. -/
def renderedCount (history : List ConversationTurn) : Nat :=
  (((sliceLast 6 history).map renderTurn).filter
    (fun s => !(s == ""))).length

/-- A 6-turn history containing one assistant turn with empty extracted
text. -/
def exampleHistory6 : List ConversationTurn :=
  [ConversationTurn.user none "a", ConversationTurn.assistant "x",
   ConversationTurn.user none "b", ConversationTurn.assistant "",
   ConversationTurn.user none "c", ConversationTurn.assistant "y"]

/-- C10: an assistant turn whose extracted markdown text is empty is
omitted entirely from the rendered history — it contributes the empty
string, its removal leaves the accumulated rendering unchanged, and on a
concrete 6-turn history with one empty assistant turn only 5 rendered
turns appear. -/
theorem emptyAssistantTurn_omitted :
    renderTurn (ConversationTurn.assistant "") = ""
    ∧ (∀ pre post : List ConversationTurn,
        concatRendered
            ((pre ++ ConversationTurn.assistant "" :: post).map renderTurn) =
          concatRendered ((pre ++ post).map renderTurn))
    ∧ exampleHistory6.length = 6
    ∧ renderedCount exampleHistory6 = 5 := by
  refine ⟨rfl, ?_, rfl, by decide⟩
  intro pre post
  induction pre with
  | nil =>
    simp only [List.nil_append, List.map_cons, concatRendered]
    rfl
  | cons turn rest ih =>
    simp only [List.cons_append, List.map_cons, concatRendered,
      List.append_eq]
    rw [ih]

/-- C8: the command-resolution policy is ordered with first match
winning: an explicit command on the current request wins; else a leading
`/token` parsed from the current raw text; else the first explicit
command or leading `/token` among user turns scanned from most recent to
oldest (assistant turns carrying nothing); and the concrete scenario —
no explicit command, raw text `"/review this"`, empty history — resolves
to `review`. -/
theorem resolveCommand_policy :
    (∀ (c : String) (p : String) (h : List ConversationTurn),
      resolveCommand (some c) p h = some c)
    ∧ (∀ (p : String) (h : List ConversationTurn) (c : String),
        parseSlashCommand p = some c → resolveCommand none p h = some c)
    ∧ (∀ (p : String) (h : List ConversationTurn),
        parseSlashCommand p = none →
        resolveCommand none p h = h.reverse.findSome? turnCommand)
    ∧ (∀ (c : String) (p : String),
        turnCommand (ConversationTurn.user (some c) p) = some c)
    ∧ (∀ p : String,
        turnCommand (ConversationTurn.user none p) = parseSlashCommand p)
    ∧ (∀ t : String, turnCommand (ConversationTurn.assistant t) = none)
    ∧ resolveCommand none "/review this" [] = some "review" := by
  refine ⟨fun c p h => rfl, ?_, ?_, fun c p => rfl, fun p => rfl,
    fun t => rfl, by decide⟩
  · intro p h c hp
    unfold resolveCommand
    rw [hp]
  · intro p h hp
    unfold resolveCommand
    rw [hp]

/-- C8 witness: the parse tier and the history-scan tier at concrete
inputs. -/
theorem resolveCommand_policy_witness :
    resolveCommand none "/fix bug"
        [ConversationTurn.user (some "older") "x"] = some "fix"
    ∧ resolveCommand none "plain question"
        [ConversationTurn.user (some "older") "x"] =
      ([ConversationTurn.user (some "older") "x"].reverse.findSome?
        turnCommand) :=
  ⟨resolveCommand_policy.2.1 "/fix bug"
      [ConversationTurn.user (some "older") "x"] "fix" (by decide),
   resolveCommand_policy.2.2.1 "plain question"
      [ConversationTurn.user (some "older") "x"] (by decide)⟩

end RagPilot
